import Mathlib

/-!
Verification development for the data-cleaning and profiling pipeline of the
`analysis-portfolio` repository.

The Python source (pandas-based) is shallowly embedded: a pandas DataFrame
becomes a `Table` (a list of named, dtype-tagged columns of `Val` cells),
rationals stand for float64 values (with explicit `Val.inf` for the two IEEE
infinities and `Val.na` for NaN/NaT/None), and each statement of
`clean_data_core` (src/clean_module.py) becomes one total Lean function.
External library behaviour (pandas/numpy) is translated by its documented
semantics: quantiles use linear interpolation, `skew` is the bias-adjusted
Fisher-Pearson estimator computed on non-missing values, `fillna` replaces
only missing cells, `drop_duplicates` keeps the first occurrence of each row.
-/

/-- A cell value of a pandas column: a finite float/int (as a rational), a
string, a datetime (as an integer timestamp), a missing value (NaN/NaT/None),
or one of the two IEEE infinities (`inf true` is `+inf`). -/
inductive Val where
  | num (q : ℚ)
  | str (s : String)
  | dt (d : ℤ)
  | na
  | inf (pos : Bool)
deriving DecidableEq, Repr

/-- The pandas dtype of a column, as far as the cleaning code branches on it:
`numeric` covers `float64`/`int64`, `object` is the string dtype, `datetime`
is `datetime64[ns]`, `category` is the pandas categorical dtype. -/
inductive Dtype where
  | numeric
  | object
  | datetime
  | category
deriving DecidableEq, Repr

/-- One named column of a DataFrame. -/
structure Column where
  name : String
  dtype : Dtype
  cells : List Val
deriving DecidableEq, Repr

/-- A DataFrame: an ordered list of columns (all of equal length in a
well-formed frame). -/
abbrev Table := List Column

/-! ## Column-name normalization (src/clean_module.py lines 15-22) -/

/-- Whitespace stripped by `str.strip()`. -/
def isSpaceChar (c : Char) : Bool :=
  c = ' ' || c = '\t' || c = '\n' || c = '\r'

/-- Characters kept by the regex replacement `[^a-z0-9_] -> _` (applied after
lower-casing). -/
def keepChar (c : Char) : Bool :=
  ('a' ≤ c && c ≤ 'z') || ('0' ≤ c && c ≤ '9') || c = '_'

/-- Collapse runs of underscores to a single underscore
(`.str.replace(r"__+", "_")`). -/
def collapseUnderscores : List Char → List Char
  | [] => []
  | '_' :: rest =>
    match collapseUnderscores rest with
    | '_' :: tail => '_' :: tail
    | tail => '_' :: tail
  | c :: rest => c :: collapseUnderscores rest

/-- Drop leading underscores. -/
def dropUnderscores (l : List Char) : List Char := l.dropWhile (· = '_')

/-- `.str.strip("_")`: drop leading and trailing underscores. -/
def stripUnderscores (l : List Char) : List Char :=
  ((dropUnderscores l).reverse.dropWhile (· = '_')).reverse

/-- Character-level column-name normalization of `clean_data_core`
(lines 15-22): strip whitespace, lower-case, replace every character outside
`[a-z0-9_]` by `_`, collapse repeated underscores, strip outer underscores. -/
def normalizeName (s : String) : String :=
  let l1 := ((s.data.dropWhile isSpaceChar).reverse.dropWhile isSpaceChar).reverse
  let l2 := l1.map Char.toLower
  let l3 := l2.map (fun c => if keepChar c then c else '_')
  String.mk (stripUnderscores (collapseUnderscores l3))

/-- Replace the binding of `k` in an association list (insert it if absent);
models a Python dict entry assignment `seen[k] = n`. -/
def updateSeen (k : String) (n : ℕ) : List (String × ℕ) → List (String × ℕ)
  | [] => [(k, n)]
  | (k', n') :: rest =>
    if k' = k then (k, n) :: rest else (k', n') :: updateSeen k n rest

/-- Loop body of `make_unique_columns` (lines 25-35): `seen` is the dict of
already-seen names with their repeat counts. -/
def makeUniqueAux : List (String × ℕ) → List String → List String
  | _, [] => []
  | seen, c :: rest =>
    match seen.lookup c with
    | none => c :: makeUniqueAux (updateSeen c 0 seen) rest
    | some k => (c ++ "_" ++ Nat.repr (k + 1)) :: makeUniqueAux (updateSeen c (k + 1) seen) rest

/-- `make_unique_columns` of `clean_data_core` (lines 25-35): first occurrence
of a name is kept, the n-th repeat gets the suffix `_n`. -/
def makeUniqueColumns (cols : List String) : List String := makeUniqueAux [] cols

/-- Column-name pass of `clean_data_core` (lines 15-40): per-name character
normalization, then `make_unique_columns` — but only when the normalized
names contain a duplicate (`if df.columns.duplicated().any()`). -/
def normalizeNames (raw : List String) : List String :=
  let ns := raw.map normalizeName
  if ns.Nodup then ns else makeUniqueColumns ns

/-- The name-normalization stage applied to a table: renames the columns,
leaving dtypes and cells untouched. -/
def normalizeColumns (t : Table) : Table :=
  List.zipWith (fun c n => { c with name := n }) t (normalizeNames (t.map Column.name))

/-! ## Datetime detection (src/clean_module.py lines 43-51) -/

/-- Abstract stand-in for `pd.to_datetime` on a single string cell: a plain
digit string is read as an integer day number, anything else fails to parse.
The verified claims do not depend on which strings parse, only on the
all-or-nothing column conversion rule around it. -/
def parseDateStr (s : String) : Option ℤ :=
  if s ≠ "" && s.data.all Char.isDigit then some (s.toNat!) else none

/-- Parse one cell of an object column under `errors="raise"`: missing cells
stay missing (`NaT`), strings must parse, any other cell raises (`none` =
exception for the whole column). -/
def parseCellRes : Val → Option Val
  | Val.na => some Val.na
  | Val.str s => (parseDateStr s).map Val.dt
  | _ => none

/-- Datetime-detection step of `clean_data_core` (lines 43-51): for an object
column, try `pd.to_datetime(col, errors="raise")`; on an exception keep the
column, otherwise convert it to datetime when the fraction of non-missing
parsed entries exceeds 0.7 (`parsed.notna().mean() > 0.7`; the comparison is
false for an empty column, whose mean is NaN). -/
def detectDTCol (c : Column) : Column :=
  if c.dtype = Dtype.object then
    match c.cells.mapM parseCellRes with
    | none => c
    | some parsed =>
      let total := c.cells.length
      let valid := (parsed.filter (· ≠ Val.na)).length
      if 10 * valid > 7 * total then { c with dtype := Dtype.datetime, cells := parsed }
      else c
  else c

/-- The datetime-detection stage over the whole table. -/
def detectDatetime (t : Table) : Table := t.map detectDTCol

/-! ## Missing-value imputation (src/clean_module.py lines 54-70) -/

/-- The *finite* numeric observations of a column (its `num` cells, in
order). Pandas `skipna` drops only NaN: infinite cells do participate in
`mean`/`skew`/`quantile`, so the functions below handle the presence of
`Val.inf` cells separately (their IEEE outcomes are spelled out case by
case) and fall back to these finite observations only when the column has
no infinities. -/
def obsQ (cells : List Val) : List ℚ :=
  cells.filterMap (fun v => match v with | Val.num q => some q | _ => none)

/-- Mean of a list of rationals (`Series.mean` on the non-missing values). -/
def meanQ (l : List ℚ) : ℚ := l.sum / l.length

/-- Median of a list of rationals (`Series.median`): sort, then take the
middle element, or the average of the two middle elements. -/
def medianQ (l : List ℚ) : ℚ :=
  let s := l.insertionSort (· ≤ ·)
  (s.getD ((s.length - 1) / 2) 0 + s.getD (s.length / 2) 0) / 2

/-- `|Series.skew()| > 1`, decided exactly over ℚ. Pandas computes the
bias-adjusted Fisher-Pearson estimator
`G1 = n * sqrt(n-1) / (n-2) * M3 / M2^(3/2)` with `M2 = Σ(x-μ)²`,
`M3 = Σ(x-μ)³`; it is NaN for fewer than 3 observations and 0 for zero
variance (both make the `> 1` comparison false). For `M2 > 0`,
`|G1| > 1 ↔ n²(n-1)M3² > (n-2)²M2³`. -/
def pandasSkewAbsGt1 (l : List ℚ) : Bool :=
  let n := l.length
  if n < 3 then false
  else
    let μ := meanQ l
    let m2 := (l.map (fun x => (x - μ) ^ 2)).sum
    let m3 := (l.map (fun x => (x - μ) ^ 3)).sum
    if m2 = 0 then false
    else decide ((n : ℚ) ^ 2 * ((n : ℚ) - 1) * m3 ^ 2 > ((n : ℚ) - 2) ^ 2 * m2 ^ 3)

/-- `|skewness| > 1` with skewness read the way the spec words it — the raw
third standardized moment `g1 = m3 / m2^(3/2)` of the non-missing values
(`|g1| > 1 ↔ n·M3² > M2³` for `M2 > 0`). Comparison definition used to check
the spec description of the imputer against `Series.skew` in the source. -/
def specSkewAbsGt1 (l : List ℚ) : Bool :=
  let n := l.length
  let μ := meanQ l
  let m2 := (l.map (fun x => (x - μ) ^ 2)).sum
  let m3 := (l.map (fun x => (x - μ) ^ 3)).sum
  if m2 = 0 then false
  else decide ((n : ℚ) * m3 ^ 2 > m2 ^ 3)

/-- Forward fill (`fillna(method="ffill")`): each missing cell takes the last
preceding non-missing value; leading missing cells stay missing. -/
def ffillCells : Option Val → List Val → List Val
  | _, [] => []
  | last, v :: rest =>
    if v = Val.na then (last.getD Val.na) :: ffillCells last rest
    else v :: ffillCells (some v) rest

/-- Count of occurrences of a value in a list. -/
def countVal (v : Val) (l : List Val) : ℕ := l.count v

/-- `Series.mode()[0]` as far as the cleaning code uses it: among the
non-missing cells, a value of maximal multiplicity (`none` when the column
has no non-missing cell). Ties are resolved by first occurrence; the claims
verified here do not depend on the tie-break. -/
def modeVal (cells : List Val) : Option Val :=
  let o := cells.filter (· ≠ Val.na)
  o.dedup.foldl
    (fun best v =>
      match best with
      | none => some v
      | some b => if countVal v o > countVal b o then some v else best)
    none

/-- Missing-value fill for one column (`clean_data_core` lines 54-70): only
columns with at least one missing cell are touched; datetime columns are
forward-filled; numeric columns are filled with the median when
`|skew| > 1` and the mean otherwise; all other columns are filled with the
mode when one exists. IEEE cases of the numeric branch: with an infinite
cell present, `skew()` is NaN (the moments contain `inf - inf`), so
`|NaN| > 1` is false and the mean branch runs — the mean of data containing
only `+inf` (resp. only `-inf`) is that infinity, which `fillna` then
writes into the missing cells, while with both infinities the mean is NaN
and `fillna(NaN)` fills nothing. Without infinities, an all-missing column
has NaN mean and is left unchanged. -/
def fillCol (c : Column) : Column :=
  if c.cells.any (· = Val.na) then
    match c.dtype with
    | Dtype.datetime => { c with cells := ffillCells none c.cells }
    | Dtype.numeric =>
      let hasP := c.cells.contains (Val.inf true)
      let hasN := c.cells.contains (Val.inf false)
      if hasP || hasN then
        if hasP && hasN then c
        else { c with cells := c.cells.map (fun v => if v = Val.na then Val.inf hasP else v) }
      else
        let o := obsQ c.cells
        if o = [] then c
        else
          let fv := if pandasSkewAbsGt1 o then medianQ o else meanQ o
          { c with cells := c.cells.map (fun v => if v = Val.na then Val.num fv else v) }
    | _ =>
      match modeVal c.cells with
      | none => c
      | some m => { c with cells := c.cells.map (fun v => if v = Val.na then m else v) }
  else c

/-- The missing-value stage over the whole table. -/
def fillMissing (t : Table) : Table := t.map fillCol

/-! ## Outlier capping (src/clean_module.py lines 72-78) -/

/-- Linear interpolation of a sorted sample at fractional position `h`:
between the order statistics of ranks `⌊h⌋` and `⌊h⌋ + 1`. -/
def interpAt (s : List ℚ) (h : ℚ) : ℚ :=
  let k : ℕ := (⌊h⌋).toNat
  let a := s.getD k 0
  let b := s.getD (k + 1) a
  a + (h - k) * (b - a)

/-- `Series.quantile(q)` with the pandas default linear interpolation: sort the
observations and interpolate at position `h = q*(m-1)` (`0` on an empty
list, a case the cleaning code never uses with effect since an empty column
has nothing to clip). -/
def quantileQ (l : List ℚ) (q : ℚ) : ℚ :=
  let s := l.insertionSort (· ≤ ·)
  if s.length = 0 then 0 else interpAt s (q * ((s.length : ℚ) - 1))

/-- `np.clip(x, lower, upper) = min(max(x, lower), upper)` on finite
values. -/
def clipQ (x lower upper : ℚ) : ℚ := min (max x lower) upper

/-- An IEEE float64 value as the capping stage sees it: a finite rational,
one of the two infinities, or NaN. -/
inductive XQ where
  | fin (q : ℚ)
  | pinf
  | ninf
  | nan
deriving DecidableEq, Repr

/-- IEEE addition on extended values (`inf + (-inf) = NaN`). -/
def XQ.add : XQ → XQ → XQ
  | XQ.nan, _ => XQ.nan
  | _, XQ.nan => XQ.nan
  | XQ.fin a, XQ.fin b => XQ.fin (a + b)
  | XQ.fin _, XQ.pinf => XQ.pinf
  | XQ.fin _, XQ.ninf => XQ.ninf
  | XQ.pinf, XQ.fin _ => XQ.pinf
  | XQ.ninf, XQ.fin _ => XQ.ninf
  | XQ.pinf, XQ.pinf => XQ.pinf
  | XQ.ninf, XQ.ninf => XQ.ninf
  | XQ.pinf, XQ.ninf => XQ.nan
  | XQ.ninf, XQ.pinf => XQ.nan

/-- IEEE subtraction on extended values (`inf - inf = NaN`). -/
def XQ.sub : XQ → XQ → XQ
  | XQ.nan, _ => XQ.nan
  | _, XQ.nan => XQ.nan
  | XQ.fin a, XQ.fin b => XQ.fin (a - b)
  | XQ.fin _, XQ.pinf => XQ.ninf
  | XQ.fin _, XQ.ninf => XQ.pinf
  | XQ.pinf, XQ.fin _ => XQ.pinf
  | XQ.ninf, XQ.fin _ => XQ.ninf
  | XQ.pinf, XQ.pinf => XQ.nan
  | XQ.ninf, XQ.ninf => XQ.nan
  | XQ.pinf, XQ.ninf => XQ.pinf
  | XQ.ninf, XQ.pinf => XQ.ninf

/-- IEEE multiplication of an extended value by a finite scalar
(`0 * inf = NaN`). -/
def XQ.smul (t : ℚ) : XQ → XQ
  | XQ.fin q => XQ.fin (t * q)
  | XQ.nan => XQ.nan
  | XQ.pinf => if 0 < t then XQ.pinf else if t < 0 then XQ.ninf else XQ.nan
  | XQ.ninf => if 0 < t then XQ.ninf else if t < 0 then XQ.pinf else XQ.nan

/-- IEEE `<=` as a boolean (false whenever NaN is involved). -/
def XQ.leB : XQ → XQ → Bool
  | XQ.nan, _ => false
  | _, XQ.nan => false
  | XQ.ninf, _ => true
  | XQ.fin _, XQ.ninf => false
  | XQ.fin a, XQ.fin b => decide (a ≤ b)
  | XQ.fin _, XQ.pinf => true
  | XQ.pinf, XQ.pinf => true
  | XQ.pinf, _ => false

/-- `np.maximum`: NaN-propagating maximum. -/
def XQ.npMax (a b : XQ) : XQ :=
  if a = XQ.nan then XQ.nan
  else if b = XQ.nan then XQ.nan
  else if XQ.leB a b then b else a

/-- `np.minimum`: NaN-propagating minimum. -/
def XQ.npMin (a b : XQ) : XQ :=
  if a = XQ.nan then XQ.nan
  else if b = XQ.nan then XQ.nan
  else if XQ.leB a b then a else b

/-- `np.clip(x, lower, upper)` on extended values:
`minimum(maximum(x, lower), upper)`; a NaN bound (or cell) yields NaN. -/
def clipX (x lower upper : XQ) : XQ := XQ.npMin (XQ.npMax x lower) upper

/-- A numeric cell as the IEEE value `np.clip` receives (NaN for a missing
cell; string and datetime cells cannot occur in a numeric-dtype column and
default to NaN). -/
def cellToXQ : Val → XQ
  | Val.num q => XQ.fin q
  | Val.inf true => XQ.pinf
  | Val.inf false => XQ.ninf
  | _ => XQ.nan

/-- Back from an IEEE value to a cell (NaN is a missing cell). -/
def xqToCell : XQ → Val
  | XQ.fin q => Val.num q
  | XQ.pinf => Val.inf true
  | XQ.ninf => Val.inf false
  | XQ.nan => Val.na

/-- The observations `Series.quantile` interpolates over: `skipna` drops
only the NaN cells, so the infinities participate. -/
def xobs (cells : List Val) : List XQ :=
  cells.filterMap (fun v =>
    match v with
    | Val.num q => some (XQ.fin q)
    | Val.inf true => some XQ.pinf
    | Val.inf false => some XQ.ninf
    | _ => none)

/-- `Series.quantile(q)` on extended values: sort (`-inf` first, `+inf`
last), then the linear interpolation `a + t*(b - a)` at position
`h = q*(m-1)`, evaluated in IEEE arithmetic — an infinite neighbour makes
the result infinite or NaN (`inf - inf`, `0*inf` and `t*inf` follow the
IEEE rules above). The quantile of an empty (all-missing) sample is NaN. -/
def quantileX (l : List XQ) (q : ℚ) : XQ :=
  let s := l.insertionSort (fun a b => XQ.leB a b = true)
  if s.length = 0 then XQ.nan
  else
    let h : ℚ := q * ((s.length : ℚ) - 1)
    let k : ℕ := (⌊h⌋).toNat
    let a := s.getD k XQ.nan
    let b := s.getD (k + 1) a
    XQ.add a (XQ.smul (h - (k : ℚ)) (XQ.sub b a))

/-- Outlier capping for one column (`clean_data_core` lines 72-78): a
numeric column is clipped by `np.clip` to its own 1st/99th percentile,
computed by `Series.quantile` over every non-missing value (infinities
included); missing cells pass through `np.clip` as NaN; all other columns
are untouched (`select_dtypes(include=np.number)`). -/
def capCol (c : Column) : Column :=
  if c.dtype = Dtype.numeric then
    let o := xobs c.cells
    let lower := quantileX o (1 / 100)
    let upper := quantileX o (99 / 100)
    { c with cells := c.cells.map (fun v => xqToCell (clipX (cellToXQ v) lower upper)) }
  else c

/-- The outlier-capping stage over the whole table. -/
def capOutliers (t : Table) : Table := t.map capCol

/-! ## Final cleanup (src/clean_module.py lines 80-85) -/

/-- `df.replace([np.inf, -np.inf], np.nan)` on one cell. -/
def replaceInfCell : Val → Val
  | Val.inf _ => Val.na
  | v => v

/-- The infinity-replacement statement over the whole table. -/
def replaceInf (t : Table) : Table :=
  t.map (fun c => { c with cells := c.cells.map replaceInfCell })

/-- `df.fillna(0)` on one cell: every missing cell becomes the scalar 0. -/
def fillZeroCell : Val → Val
  | Val.na => Val.num 0
  | v => v

/-- The `fillna(0)` statement over the whole table. -/
def fillZero (t : Table) : Table :=
  t.map (fun c => { c with cells := c.cells.map fillZeroCell })

/-- Number of rows of a table (length of its first column; 0 for a table
with no columns). -/
def nrows (t : Table) : ℕ :=
  match t with
  | [] => 0
  | c :: _ => c.cells.length

/-- Row `i` of a table, as the list of the i-th cell of each column. -/
def rowAt (t : Table) (i : ℕ) : List Val :=
  t.map (fun c => c.cells.getD i Val.na)

/-- The row indices kept by `df.drop_duplicates()`: a row survives iff no
earlier row is equal to it across all columns. -/
def keptIdx (t : Table) : List ℕ :=
  (List.range (nrows t)).filter (fun i => (List.range i).all (fun j => rowAt t j ≠ rowAt t i))

/-- `df.drop_duplicates()` (line 83): keep the first occurrence of every
distinct row. -/
def dropDuplicates (t : Table) : Table :=
  t.map (fun c => { c with cells := (keptIdx t).filterMap (fun i => c.cells.get? i) })

/-! ## The cleaning orchestrator -/

/-- `clean_data_core` (src/clean_module.py lines 11-85), statement by
statement: normalize and deduplicate column names, detect datetime columns,
fill missing values, cap outliers, then the final cleanup — replace the
infinities by NaN, fill every remaining NaN with 0, and drop duplicate
rows. (`df = df.copy()` on line 12 makes all of this act on a copy.) -/
def cleanDataCore (t : Table) : Table :=
  dropDuplicates (fillZero (replaceInf (capOutliers (fillMissing (detectDatetime (normalizeColumns t))))))

/-- Modelled from the spec (§4.7): the same stages as `cleanDataCore`, but
with duplicate elimination placed *before* outlier capping, the order the
spec prescribes (normalize → impute → dedupe → cap). Comparison definition
for the stage-order claim; not present in the source. -/
def cleanDataCoreSpecOrder (t : Table) : Table :=
  fillZero (replaceInf (capOutliers (dropDuplicates (fillMissing (detectDatetime (normalizeColumns t))))))

/-- `clean_data_core` at the Python boundary: called with `None`, line 12
(`df.copy()`) raises an `AttributeError`; with a DataFrame it returns
normally (every per-column operation that can throw is wrapped in
`try/except`). -/
def cleanDataCoreOpt : Option Table → Except String Table
  | none => Except.error "AttributeError: NoneType object has no attribute copy"
  | some t => Except.ok (cleanDataCore t)

/-- The in-place effect of `auto_data_clean` (src/clean_module.py lines
91-109) on the DataFrame object of the caller: line 108 (`df.columns =
cleaned_names`) assigns the character-normalized names (without the
uniqueness pass, which only `clean_data_core` applies to its copy) to the
object owned by the caller; no other statement of the function mutates it. -/
def autoDataCleanEffect (t : Table) : Table :=
  t.map (fun c => { c with name := normalizeName c.name })

/-! ## Type classification (src/ai_summary_module.py lines 32-46) -/

/-- `skip_cols` of `generate_ai_summary`. -/
def skipCols : List String := ["id", "index", "cluster", "segment", "target"]

/-- `Series.nunique()`: number of distinct non-missing values. -/
def nuniqueCol (c : Column) : ℕ := ((c.cells.filter (· ≠ Val.na)).dedup).length

/-- `cat_cols` of `generate_ai_summary` (lines 33-37): columns whose dtype is
`category` or whose distinct-value count is below 20, excluding the skip
names. -/
def catColsOf (t : Table) : List String :=
  (t.filter (fun c =>
    (c.dtype = Dtype.category || nuniqueCol c < 20) && !(skipCols.contains c.name.toLower))).map
    Column.name

/-- `num_cols` of `generate_ai_summary` (lines 38-43): numeric-dtype columns,
excluding the skip names and anything already categorical. -/
def numColsOf (t : Table) : List String :=
  (t.filter (fun c =>
    c.dtype = Dtype.numeric && !(skipCols.contains c.name.toLower) &&
      !((catColsOf t).contains c.name))).map
    Column.name

/-- `datetime_cols` of `generate_ai_summary` (lines 44-46): columns of
datetime dtype (no skip-name filter, no exclusion of the other classes). -/
def datetimeColsOf (t : Table) : List String :=
  (t.filter (fun c => c.dtype = Dtype.datetime)).map Column.name

/-! ## Categorical encoding (src/eda_module.py lines 36-42) -/

/-- The sort order of the pandas categorical engine on cell values:
`-inf` < finite numbers < `+inf` for float labels, lexicographic for
string labels, chronological for datetime labels (a real column is
homogeneous, so the cross-constructor rank never decides within one
column). -/
def valLeB : Val → Val → Bool
  | Val.num a, Val.num b => decide (a ≤ b)
  | Val.inf false, Val.num _ => true
  | Val.inf false, Val.inf _ => true
  | Val.num _, Val.inf true => true
  | Val.num _, Val.inf false => false
  | Val.inf true, Val.num _ => false
  | Val.inf true, Val.inf b => b
  | Val.str s, Val.str t => decide (s ≤ t)
  | Val.dt c, Val.dt d => decide (c ≤ d)
  | Val.str _, _ => true
  | _, Val.str _ => false
  | Val.dt _, _ => true
  | _, Val.dt _ => false
  | Val.na, _ => true
  | _, Val.na => false

/-- The pandas categories of a column (`astype(category).cat.categories`):
the distinct non-missing values — numeric labels (infinities included) just
as much as string labels — in sorted order. -/
def categoriesOf (cells : List Val) : List Val :=
  List.insertionSort (fun a b => valLeB a b = true) ((cells.filter (· ≠ Val.na)).dedup)

/-- `cat.codes` for one cell: the 0-based position of its value among the
categories, `-1` for a missing cell (and for a value outside the observed
categories, which the closed-world mapping never encodes). -/
def encodeCell (cats : List Val) (v : Val) : ℤ :=
  if v = Val.na then -1
  else if v ∈ cats then (cats.indexOf v : ℤ) else -1

/-- The encoded column `df_encoded[col] = df_encoded[col].cat.codes`. -/
def encodeColumn (cells : List Val) : List ℤ :=
  cells.map (encodeCell (categoriesOf cells))

/-- The Category Mapping `dict(enumerate(cat.categories))`: code to label. -/
def categoryMapping (cells : List Val) (code : ℕ) : Option Val :=
  (categoriesOf cells).get? code

/-! ## Dataset category detection (src/detect_category.py) -/

/-- Regex word characters (`\w`): the class `\b` boundaries are relative to.
The underscore is a word character. -/
def isWordChar (c : Char) : Bool :=
  ('a' ≤ c && c ≤ 'z') || ('A' ≤ c && c ≤ 'Z') || ('0' ≤ c && c ≤ '9') || c = '_'

/-- Does `re.search(r"\b<kw>\b", col)` succeed at position `i`: the keyword
occurs there and both ends sit at a word boundary. -/
def matchAt (kw col : List Char) (i : ℕ) : Bool :=
  decide ((col.drop i).take kw.length = kw) &&
    (decide (i = 0) || !(isWordChar (col.getD (i - 1) ' '))) &&
    (decide (i + kw.length = col.length) || !(isWordChar (col.getD (i + kw.length) ' ')))

/-- `re.search(r"\b<kw>\b", col)` over a whole column name. -/
def wordSearch (kw col : String) : Bool :=
  (List.range (col.data.length + 1)).any (matchAt kw.data col.data)

/-- `category_keywords` of `detect_dataset_category` (lines 25-54), in the
insertion order of the dict. -/
def categoryKeywords : List (String × List String) :=
  [("Customer / People",
    ["customer", "client", "name", "gender", "age", "income",
     "education", "segment", "marital", "occupation"]),
   ("Finance / Banking",
    ["balance", "loan", "credit", "debit", "account", "transaction",
     "bank", "payment", "interest", "amount", "salary"]),
   ("Sales / Retail",
    ["product", "sale", "price", "discount", "revenue", "profit",
     "category", "store", "region", "quantity", "brand"]),
   ("Healthcare / Medical",
    ["patient", "disease", "diagnosis", "treatment", "doctor",
     "hospital", "medical", "symptom", "test", "result", "lab"]),
   ("Technology / Usage",
    ["device", "app", "usage", "session", "click", "login",
     "duration", "user_id", "platform", "os", "browser"]),
   ("Education",
    ["student", "grade", "school", "exam", "teacher", "course",
     "subject", "marks", "attendance"]),
   ("Operations / Logistics",
    ["shipment", "order", "supply", "warehouse", "inventory",
     "logistic", "vehicle", "route", "delivery"])]

/-- The whole-word keyword-match score of one sector over the lower-cased
column names (lines 56-63). -/
def sectorScore (cols : List String) (kws : List String) : ℕ :=
  (cols.map (fun col => (kws.filter (fun kw => wordSearch kw col)).length)).sum

/-- `max(match_scores, key=match_scores.get)`: the first sector (in dict
order) attaining the maximal score. -/
def bestSector : List (String × ℕ) → String × ℕ
  | [] => ("General / Other", 0)
  | p :: rest => (rest.foldl (fun best q => if q.2 > best.2 then q else best) p)

/-- `detect_dataset_category` (src/detect_category.py lines 10-82): `None`
input returns "Unknown"; otherwise score every sector by whole-word keyword
matches over the lower-cased column names and return the best sector, or
"General / Other" when every score is zero. -/
def detectDatasetCategory (df : Option Table) : String :=
  match df with
  | none => "Unknown"
  | some t =>
    let cols := t.map (fun c => c.name.toLower)
    let scores := categoryKeywords.map (fun p => (p.1, sectorScore cols p.2))
    let best := bestSector scores
    if best.2 = 0 then "General / Other" else best.1

/-! ## Helper lemmas -/

theorem getD_default_irrel {α : Type} (s : List α) (n : ℕ) (hn : n < s.length) (d d' : α) :
    s.getD n d = s.getD n d' := by
  rw [List.getD_eq_getD_get?, List.getD_eq_getD_get?, s.get?_eq_get hn]
  rfl

theorem getD_sorted_mono {s : List ℚ} (hs : s.Sorted (· ≤ ·)) {i j : ℕ}
    (hij : i ≤ j) (hj : j < s.length) : s.getD i 0 ≤ s.getD j 0 := by
  have hi : i < s.length := Nat.lt_of_le_of_lt hij hj
  rw [List.getD_eq_getD_get?, List.getD_eq_getD_get?, s.get?_eq_get hi, s.get?_eq_get hj]
  exact hs.rel_get_of_le (Fin.mk_le_mk.mpr hij)

theorem interpAt_mono {s : List ℚ} (hs : s.Sorted (· ≤ ·)) {h1 h2 : ℚ}
    (h0 : 0 ≤ h1) (h12 : h1 ≤ h2) (hle : h2 ≤ (s.length : ℚ) - 1) :
    interpAt s h1 ≤ interpAt s h2 := by
  have hfl1 : (0 : ℤ) ≤ ⌊h1⌋ := Int.floor_nonneg.mpr h0
  have hfl2 : (0 : ℤ) ≤ ⌊h2⌋ := Int.floor_nonneg.mpr (le_trans h0 h12)
  set k1 : ℕ := (⌊h1⌋).toNat with hk1def
  set k2 : ℕ := (⌊h2⌋).toNat with hk2def
  have hc1 : (k1 : ℚ) = (⌊h1⌋ : ℚ) := by
    rw [hk1def]; exact_mod_cast congrArg (Int.cast : ℤ → ℚ) (Int.toNat_of_nonneg hfl1)
  have hc2 : (k2 : ℚ) = (⌊h2⌋ : ℚ) := by
    rw [hk2def]; exact_mod_cast congrArg (Int.cast : ℤ → ℚ) (Int.toNat_of_nonneg hfl2)
  have hk1le : (k1 : ℚ) ≤ h1 := by rw [hc1]; exact Int.floor_le h1
  have hk2le : (k2 : ℚ) ≤ h2 := by rw [hc2]; exact Int.floor_le h2
  have h1lt : h1 < (k1 : ℚ) + 1 := by rw [hc1]; exact_mod_cast Int.lt_floor_add_one h1
  have h2lt : h2 < (k2 : ℚ) + 1 := by rw [hc2]; exact_mod_cast Int.lt_floor_add_one h2
  have hkk : k1 ≤ k2 := by
    rw [hk1def, hk2def]; exact Int.toNat_le_toNat (Int.floor_le_floor h12)
  have hk2lt : k2 < s.length := by
    have hq : (k2 : ℚ) + 1 ≤ (s.length : ℚ) := by
      have := le_trans hk2le hle; linarith
    exact_mod_cast Nat.lt_of_succ_le (by exact_mod_cast hq)
  have hk1lt : k1 < s.length := Nat.lt_of_le_of_lt hkk hk2lt
  simp only [interpAt]
  set a1 := s.getD k1 0 with ha1
  set b1 := s.getD (k1 + 1) a1 with hb1
  set a2 := s.getD k2 0 with ha2
  set b2 := s.getD (k2 + 1) a2 with hb2
  have hab1 : a1 ≤ b1 := by
    by_cases hb : k1 + 1 < s.length
    · rw [hb1, getD_default_irrel s (k1 + 1) hb a1 0]
      exact getD_sorted_mono hs (Nat.le_succ k1) hb
    · rw [hb1, List.getD_eq_default s a1 (Nat.le_of_not_lt hb)]
  have hab2 : a2 ≤ b2 := by
    by_cases hb : k2 + 1 < s.length
    · rw [hb2, getD_default_irrel s (k2 + 1) hb a2 0]
      exact getD_sorted_mono hs (Nat.le_succ k2) hb
    · rw [hb2, List.getD_eq_default s a2 (Nat.le_of_not_lt hb)]
  rcases Nat.eq_or_lt_of_le hkk with heq | hlt
  · have hq12 : (k1 : ℚ) = (k2 : ℚ) := by exact_mod_cast heq
    have haa : a1 = a2 := by rw [ha1, ha2, heq]
    have hbb : b1 = b2 := by rw [hb1, hb2, heq, haa]
    rw [haa, hbb, hq12]
    nlinarith [sub_nonneg.mpr (haa ▸ hab1)]
  · have hsucc : k1 + 1 ≤ k2 := hlt
    have hs1 : k1 + 1 < s.length := Nat.lt_of_le_of_lt hsucc hk2lt
    have hb1eq : b1 = s.getD (k1 + 1) 0 := by
      rw [hb1]; exact getD_default_irrel s (k1 + 1) hs1 a1 0
    have hmid : b1 ≤ a2 := by
      rw [hb1eq, ha2]; exact getD_sorted_mono hs hsucc hk2lt
    have hv1 : a1 + (h1 - k1) * (b1 - a1) ≤ b1 := by nlinarith
    have hv2 : a2 ≤ a2 + (h2 - k2) * (b2 - a2) := by nlinarith
    linarith

theorem quantileQ_le_quantileQ (l : List ℚ) {q1 q2 : ℚ}
    (h0 : 0 ≤ q1) (h12 : q1 ≤ q2) (h21 : q2 ≤ 1) :
    quantileQ l q1 ≤ quantileQ l q2 := by
  unfold quantileQ
  by_cases hm : (l.insertionSort (· ≤ ·)).length = 0
  · simp [hm]
  · have hge : 1 ≤ (l.insertionSort (· ≤ ·)).length := Nat.one_le_iff_ne_zero.mpr hm
    have hge' : (0 : ℚ) ≤ ((l.insertionSort (· ≤ ·)).length : ℚ) - 1 := by
      have : (1 : ℚ) ≤ ((l.insertionSort (· ≤ ·)).length : ℚ) := by exact_mod_cast hge
      linarith
    simp only [hm, if_false]
    apply interpAt_mono (List.sorted_insertionSort _ l)
    · exact mul_nonneg h0 hge'
    · exact mul_le_mul_of_nonneg_right h12 hge'
    · nlinarith

theorem quantileQ_p1_le_p99 (l : List ℚ) :
    quantileQ l (1 / 100) ≤ quantileQ l (99 / 100) :=
  quantileQ_le_quantileQ l (by norm_num) (by norm_num) (by norm_num)

theorem clipQ_bounds {l u : ℚ} (x : ℚ) (h : l ≤ u) :
    l ≤ clipQ x l u ∧ clipQ x l u ≤ u :=
  ⟨le_min (le_max_right x l) h, min_le_right _ _⟩

theorem orderedInsert_map_fin (x : ℚ) (s : List ℚ) :
    List.orderedInsert (fun a b => XQ.leB a b = true) (XQ.fin x) (s.map XQ.fin)
      = (List.orderedInsert (· ≤ ·) x s).map XQ.fin := by
  induction s with
  | nil => rfl
  | cons y s ih =>
    simp only [List.map_cons, List.orderedInsert]
    by_cases h : x ≤ y
    · rw [if_pos (by simp [XQ.leB, h]), if_pos h, List.map_cons, List.map_cons]
    · rw [if_neg (by simp [XQ.leB, h]), if_neg h, List.map_cons, ih]

theorem insertionSort_map_fin (l : List ℚ) :
    List.insertionSort (fun a b => XQ.leB a b = true) (l.map XQ.fin)
      = (List.insertionSort (· ≤ ·) l).map XQ.fin := by
  induction l with
  | nil => rfl
  | cons x l ih => simp only [List.map_cons, List.insertionSort, ih, orderedInsert_map_fin]

theorem getD_map_fin (s : List ℚ) (k : ℕ) (hk : k < s.length) (d : XQ) :
    (s.map XQ.fin).getD k d = XQ.fin (s.getD k 0) := by
  rw [List.getD_eq_getD_get?, List.getD_eq_getD_get?, List.get?_map, s.get?_eq_get hk]
  rfl

theorem quantileX_map_fin (l : List ℚ) {q : ℚ} (hl : l ≠ [])
    (hq0 : 0 ≤ q) (hq1 : q ≤ 1) :
    quantileX (l.map XQ.fin) q = XQ.fin (quantileQ l q) := by
  unfold quantileX quantileQ interpAt
  rw [insertionSort_map_fin]
  set s := l.insertionSort (· ≤ ·) with hsdef
  have hlen : s.length = l.length := (List.perm_insertionSort (· ≤ ·) l).length_eq
  have hne : s.length ≠ 0 := by
    rw [hlen]
    exact fun h0 => hl (List.length_eq_zero.mp h0)
  have hge : 1 ≤ s.length := Nat.one_le_iff_ne_zero.mpr hne
  have hgeq : (1 : ℚ) ≤ (s.length : ℚ) := by exact_mod_cast hge
  simp only [List.length_map, if_neg hne]
  have h0 : 0 ≤ q * ((s.length : ℚ) - 1) := mul_nonneg hq0 (by linarith)
  have hle : q * ((s.length : ℚ) - 1) ≤ (s.length : ℚ) - 1 := by nlinarith
  have hflnn : (0 : ℤ) ≤ ⌊q * ((s.length : ℚ) - 1)⌋ := Int.floor_nonneg.mpr h0
  set k : ℕ := (⌊q * ((s.length : ℚ) - 1)⌋).toNat with hkdef
  have hkq : (k : ℚ) = (⌊q * ((s.length : ℚ) - 1)⌋ : ℚ) := by
    rw [hkdef]
    exact_mod_cast congrArg (Int.cast : ℤ → ℚ) (Int.toNat_of_nonneg hflnn)
  have hkle : (k : ℚ) ≤ q * ((s.length : ℚ) - 1) := by
    rw [hkq]
    exact Int.floor_le _
  have hk : k < s.length := by
    have hq2 : (k : ℚ) + 1 ≤ (s.length : ℚ) := by linarith [le_trans hkle hle]
    exact_mod_cast Nat.lt_of_succ_le (by exact_mod_cast hq2)
  have ha : (s.map XQ.fin).getD k XQ.nan = XQ.fin (s.getD k 0) := getD_map_fin s k hk _
  rw [ha]
  by_cases hk1 : k + 1 < s.length
  · rw [getD_map_fin s (k + 1) hk1, getD_default_irrel s (k + 1) hk1 (s.getD k 0) 0]
    rfl
  · have hge1 : s.length ≤ k + 1 := Nat.le_of_not_lt hk1
    have hge1m : (s.map XQ.fin).length ≤ k + 1 := by rw [List.length_map]; exact hge1
    rw [List.getD_eq_default _ _ hge1m, List.getD_eq_default _ _ hge1]
    rfl

theorem clipX_fin (x l u : ℚ) :
    clipX (XQ.fin x) (XQ.fin l) (XQ.fin u) = XQ.fin (clipQ x l u) := by
  have hmax : XQ.npMax (XQ.fin x) (XQ.fin l) = XQ.fin (max x l) := by
    simp only [XQ.npMax, XQ.leB]
    by_cases h : x ≤ l
    · simp [h, max_eq_right h]
    · simp [h, max_eq_left (le_of_not_le h)]
  unfold clipX clipQ
  rw [hmax]
  simp only [XQ.npMin, XQ.leB]
  by_cases h : max x l ≤ u
  · simp [h, min_eq_left h]
  · simp [h, min_eq_right (le_of_not_le h)]

theorem xobs_eq_map_fin : ∀ (cells : List Val), (∀ b : Bool, Val.inf b ∉ cells) →
    xobs cells = (obsQ cells).map XQ.fin := by
  intro cells
  induction cells with
  | nil => intro _; rfl
  | cons v rest ih =>
    intro hfin
    have hfin' : ∀ b : Bool, Val.inf b ∉ rest :=
      fun b hb => hfin b (List.mem_cons_of_mem _ hb)
    cases v with
    | inf b => exact absurd (List.mem_cons_self _ _) (hfin b)
    | num q => simp only [xobs, obsQ, List.filterMap_cons] at ih ⊢; rw [ih hfin']; rfl
    | str s => simp only [xobs, obsQ, List.filterMap_cons] at ih ⊢; exact ih hfin'
    | dt d => simp only [xobs, obsQ, List.filterMap_cons] at ih ⊢; exact ih hfin'
    | na => simp only [xobs, obsQ, List.filterMap_cons] at ih ⊢; exact ih hfin'

set_option maxRecDepth 10000

/-! ## Claim theorems -/

/-- C9 (counterexample): on the numeric column `[-inf, 0, 1, 2]` the 1st
percentile interpolates between `-inf` and `0`, which is `-inf + inf = NaN`
in IEEE arithmetic, and `np.clip` with a NaN bound turns *every* cell into
NaN: the capped column has no values left at all, so it has no minimum
above the 1st percentile and the finite values `0`, `1`, `2` were destroyed
rather than clipped. -/
theorem cap_inf_counterexample :
    (capCol ⟨"x", Dtype.numeric,
        [Val.inf false, Val.num 0, Val.num 1, Val.num 2]⟩).cells
      = [Val.na, Val.na, Val.na, Val.na] ∧
    ∀ q : ℚ, Val.num q ∉
      (capCol ⟨"x", Dtype.numeric,
        [Val.inf false, Val.num 0, Val.num 1, Val.num 2]⟩).cells := by
  have h1 : (capCol ⟨"x", Dtype.numeric,
      [Val.inf false, Val.num 0, Val.num 1, Val.num 2]⟩).cells
      = [Val.na, Val.na, Val.na, Val.na] := by with_unfolding_all decide
  refine ⟨h1, ?_⟩
  rw [h1]
  intro q hq
  simp at hq

/-- C9 (amended): on a numeric column whose values are all finite, the
Outlier Capper clips every value into the closed range of the pre-cap
1st/99th percentiles of that column; for every column the stage preserves
the cell count, the table keeps its column count, and non-numeric columns
are untouched. -/
theorem cap_outliers_invariant (t : Table) (c : Column)
    (hnum : c.dtype = Dtype.numeric) (hfin : ∀ b : Bool, Val.inf b ∉ c.cells) :
    (capOutliers t).length = t.length ∧
    (∀ d ∈ t, capCol d ∈ capOutliers t) ∧
    (∀ d : Column, (capCol d).cells.length = d.cells.length) ∧
    (∀ d : Column, d.dtype ≠ Dtype.numeric → capCol d = d) ∧
    (∀ q : ℚ, Val.num q ∈ (capCol c).cells →
      quantileQ (obsQ c.cells) (1 / 100) ≤ q ∧ q ≤ quantileQ (obsQ c.cells) (99 / 100)) := by
  refine ⟨by simp [capOutliers], fun d hd => List.mem_map_of_mem capCol hd, ?_, ?_, ?_⟩
  · intro d
    by_cases hd : d.dtype = Dtype.numeric <;> simp [capCol, hd]
  · intro d hd; simp [capCol, hd]
  · intro q hq
    have hcc : (capCol c).cells = c.cells.map (fun v => xqToCell (clipX (cellToXQ v)
        (quantileX (xobs c.cells) (1 / 100)) (quantileX (xobs c.cells) (99 / 100)))) := by
      simp [capCol, hnum]
    by_cases ho : obsQ c.cells = []
    · rw [hcc] at hq
      rcases List.mem_map.mp hq with ⟨v0, hv0, heq⟩
      cases v0 with
      | num q0 =>
        have hmem : q0 ∈ obsQ c.cells := List.mem_filterMap.mpr ⟨Val.num q0, hv0, rfl⟩
        rw [ho] at hmem
        cases hmem
      | inf b => exact absurd hv0 (hfin b)
      | na => simp [cellToXQ, clipX, XQ.npMax, XQ.npMin, xqToCell] at heq
      | str s => simp [cellToXQ, clipX, XQ.npMax, XQ.npMin, xqToCell] at heq
      | dt d => simp [cellToXQ, clipX, XQ.npMax, XQ.npMin, xqToCell] at heq
    · have hx : xobs c.cells = (obsQ c.cells).map XQ.fin := xobs_eq_map_fin _ hfin
      have hlo : quantileX (xobs c.cells) (1 / 100)
          = XQ.fin (quantileQ (obsQ c.cells) (1 / 100)) := by
        rw [hx]; exact quantileX_map_fin _ ho (by norm_num) (by norm_num)
      have hup : quantileX (xobs c.cells) (99 / 100)
          = XQ.fin (quantileQ (obsQ c.cells) (99 / 100)) := by
        rw [hx]; exact quantileX_map_fin _ ho (by norm_num) (by norm_num)
      rw [hcc, hlo, hup] at hq
      rcases List.mem_map.mp hq with ⟨v0, hv0, heq⟩
      have hple := quantileQ_p1_le_p99 (obsQ c.cells)
      cases v0 with
      | num q0 =>
        rw [show cellToXQ (Val.num q0) = XQ.fin q0 from rfl, clipX_fin] at heq
        have hcq : clipQ q0 (quantileQ (obsQ c.cells) (1 / 100))
            (quantileQ (obsQ c.cells) (99 / 100)) = q := Val.num.inj heq
        rw [← hcq]
        exact clipQ_bounds q0 hple
      | inf b => exact absurd hv0 (hfin b)
      | na => simp [cellToXQ, clipX, XQ.npMax, XQ.npMin, xqToCell] at heq
      | str s => simp [cellToXQ, clipX, XQ.npMax, XQ.npMin, xqToCell] at heq
      | dt d => simp [cellToXQ, clipX, XQ.npMax, XQ.npMin, xqToCell] at heq

/-- Witness for `cap_outliers_invariant` at the example column of the spec,
`[1,2,3,4,1000]` and its cell `2`. -/
theorem cap_outliers_invariant_witness :
    quantileQ (obsQ [Val.num 1, Val.num 2, Val.num 3, Val.num 4, Val.num 1000]) (1 / 100) ≤ 2 ∧
    2 ≤ quantileQ (obsQ [Val.num 1, Val.num 2, Val.num 3, Val.num 4, Val.num 1000]) (99 / 100) :=
  (cap_outliers_invariant
      [⟨"income", Dtype.numeric, [Val.num 1, Val.num 2, Val.num 3, Val.num 4, Val.num 1000]⟩]
      ⟨"income", Dtype.numeric, [Val.num 1, Val.num 2, Val.num 3, Val.num 4, Val.num 1000]⟩
      rfl (by with_unfolding_all decide)).2.2.2.2 2 (by with_unfolding_all decide)

/-- C1 (counterexample): on the single numeric column
`[1,2,3,4,100,100]`, running the cleaning core as written (cap before the
final dedupe) and running the order given in the spec (dedupe before cap) produce
different tables — the duplicated `100` drags the 99th percentile up to
`100` when run as coded, while the spec order caps it at `96.16`, so
the percentiles are *not* computed on the deduplicated table. -/
theorem clean_order_counterexample :
    cleanDataCore [⟨"a", Dtype.numeric,
      [Val.num 1, Val.num 2, Val.num 3, Val.num 4, Val.num 100, Val.num 100]⟩] ≠
    cleanDataCoreSpecOrder [⟨"a", Dtype.numeric,
      [Val.num 1, Val.num 2, Val.num 3, Val.num 4, Val.num 100, Val.num 100]⟩] := by
  with_unfolding_all decide

/-- C2: on the raw name sequence `["a", "a 1", "a"]` the normalizer emits
`["a", "a_1", "a_1"]` — character normalization turns `"a 1"` into `"a_1"`,
and the uniqueness pass then renames the repeated `"a"` to the same `"a_1"`,
so the output is *not* duplicate-free (contradicting the comment in the code,
"Ensure unique column names"). -/
theorem normalizer_duplicate_output :
    normalizeNames ["a", "a 1", "a"] = ["a", "a_1", "a_1"] ∧
    ¬ (normalizeNames ["a", "a 1", "a"]).Nodup := by
  with_unfolding_all decide

/-- C3 (counterexample): called on a null table, the cleaning entry point
raises (`df.copy()` on `None`) instead of returning a no-data signal. -/
theorem clean_null_input_raises :
    cleanDataCoreOpt none =
      Except.error "AttributeError: NoneType object has no attribute copy" := rfl

/-- C4 (counterexample): for the numeric column `[0, 1, 4, NaN]` the raw
third standardized moment of the observed values is ≤ 1, so the claim
prescribes the mean `5/3`; but the pandas bias-adjusted `skew()` exceeds 1,
so the code fills the missing cell with the median `1` instead. -/
theorem imputer_skew_counterexample :
    specSkewAbsGt1 [0, 1, 4] = false ∧
    meanQ [0, 1, 4] = 5 / 3 ∧
    (fillCol ⟨"x", Dtype.numeric, [Val.num 0, Val.num 1, Val.num 4, Val.na]⟩).cells =
      [Val.num 0, Val.num 1, Val.num 4, Val.num 1] ∧
    Val.num (5 / 3) ≠ Val.num 1 := by
  with_unfolding_all decide

/-- C5 (counterexample): a datetime column with three distinct values is
classified both categorical (distinct count below 20) and datetime, so the
three classes are not mutually exclusive. -/
theorem classifier_not_a_partition :
    "when" ∈ catColsOf [⟨"when", Dtype.datetime, [Val.dt 0, Val.dt 1, Val.dt 2]⟩] ∧
    "when" ∈ datetimeColsOf [⟨"when", Dtype.datetime, [Val.dt 0, Val.dt 1, Val.dt 2]⟩] := by
  with_unfolding_all decide

/-- C6: on the columns `["loan_amount", "credit_score", "account_id"]` every
sector — Finance/Banking included — scores 0, because `\b` never matches
next to an underscore (a regex word character), and the detector returns
"General / Other" instead of the claimed "Finance/Banking". -/
theorem detect_category_zero_scores :
    (categoryKeywords.map
      (fun p => sectorScore ["loan_amount", "credit_score", "account_id"] p.2)).sum = 0 ∧
    detectDatasetCategory (some [⟨"loan_amount", Dtype.numeric, []⟩,
      ⟨"credit_score", Dtype.numeric, []⟩, ⟨"account_id", Dtype.numeric, []⟩]) =
      "General / Other" := by
  with_unfolding_all decide

/-- C8 (counterexample): `auto_data_clean` mutates the table of its caller — a
column named `"A "` is renamed to `"a"` on the object the caller still holds. -/
theorem auto_clean_mutates_caller :
    autoDataCleanEffect [⟨"A ", Dtype.object, [Val.str "x"]⟩] ≠
      [⟨"A ", Dtype.object, [Val.str "x"]⟩] := by
  with_unfolding_all decide

/-- C8: what the stages do to the object of the caller: `auto_data_clean`
changes only the column names of its argument (to their character-normalized
form), leaving every dtype and every cell untouched; `clean_data_core`
works on a copy throughout. -/
theorem auto_clean_effect_renames_only (t : Table) :
    (autoDataCleanEffect t).map Column.dtype = t.map Column.dtype ∧
    (autoDataCleanEffect t).map Column.cells = t.map Column.cells ∧
    (autoDataCleanEffect t).map Column.name = t.map (fun c => normalizeName c.name) := by
  unfold autoDataCleanEffect
  refine ⟨?_, ?_, ?_⟩ <;> simp [List.map_map, Function.comp]

/-- C4 (amended): a numeric column with at least one missing value, at least
one observed value and no infinities has every missing cell replaced by the
median when the bias-adjusted `skew()` of the observed values exceeds 1 in
absolute value, and by the mean otherwise; afterwards the column has no
missing cell. (With an infinity present the skew is NaN and the code falls
into the mean branch, writing an infinite mean — or nothing, when both
infinities occur — into the missing cells; see `fillCol`.) -/
theorem fill_numeric_by_adjusted_skew (c : Column) (hdt : c.dtype = Dtype.numeric)
    (hna : Val.na ∈ c.cells) (hobs : obsQ c.cells ≠ [])
    (hfin : ∀ b : Bool, Val.inf b ∉ c.cells) :
    (fillCol c).cells = c.cells.map (fun v => if v = Val.na then
        Val.num (if pandasSkewAbsGt1 (obsQ c.cells) then medianQ (obsQ c.cells)
                 else meanQ (obsQ c.cells)) else v) ∧
    ∀ v ∈ (fillCol c).cells, v ≠ Val.na := by
  have hany : c.cells.any (· = Val.na) = true :=
    List.any_eq_true.mpr ⟨Val.na, hna, by simp⟩
  have hfc : (fillCol c).cells = c.cells.map (fun v => if v = Val.na then
      Val.num (if pandasSkewAbsGt1 (obsQ c.cells) then medianQ (obsQ c.cells)
               else meanQ (obsQ c.cells)) else v) := by
    simp [fillCol, hany, hdt, hobs, hfin true, hfin false]
  refine ⟨hfc, ?_⟩
  rw [hfc]
  intro v hv
  rcases List.mem_map.mp hv with ⟨v0, _, rfl⟩
  by_cases h0 : v0 = Val.na <;> simp [h0]

/-- Witness for `fill_numeric_by_adjusted_skew` at the column `[0,1,4,NaN]`. -/
theorem fill_numeric_by_adjusted_skew_witness :
    (fillCol ⟨"x", Dtype.numeric, [Val.num 0, Val.num 1, Val.num 4, Val.na]⟩).cells =
      [Val.num 0, Val.num 1, Val.num 4, Val.na].map (fun v => if v = Val.na then
        Val.num (if pandasSkewAbsGt1 (obsQ [Val.num 0, Val.num 1, Val.num 4, Val.na])
                 then medianQ (obsQ [Val.num 0, Val.num 1, Val.num 4, Val.na])
                 else meanQ (obsQ [Val.num 0, Val.num 1, Val.num 4, Val.na])) else v) :=
  (fill_numeric_by_adjusted_skew ⟨"x", Dtype.numeric, [Val.num 0, Val.num 1, Val.num 4, Val.na]⟩
    rfl (by with_unfolding_all decide) (by with_unfolding_all decide)
    (by with_unfolding_all decide)).1

/-- C10: the cleaned table contains no missing cell and no infinite cell in
any column: the final cleanup replaces the infinities by NaN, fills every
NaN with 0, and duplicate removal only discards whole rows. -/
theorem clean_output_no_missing_no_inf (t : Table) (c : Column)
    (hc : c ∈ cleanDataCore t) (v : Val) (hv : v ∈ c.cells) :
    v ≠ Val.na ∧ ∀ b : Bool, v ≠ Val.inf b := by
  unfold cleanDataCore at hc
  rcases List.mem_map.mp hc with ⟨e, he, rfl⟩
  rcases List.mem_filterMap.mp hv with ⟨i, _, hget⟩
  have hv1 : v ∈ e.cells := List.get?_mem hget
  rcases List.mem_map.mp he with ⟨e1, he1, rfl⟩
  rcases List.mem_map.mp hv1 with ⟨v1, hv2, rfl⟩
  rcases List.mem_map.mp he1 with ⟨e2, _, rfl⟩
  rcases List.mem_map.mp hv2 with ⟨v2, _, rfl⟩
  cases v2 <;> simp [replaceInfCell, fillZeroCell]

/-- Witness for `clean_output_no_missing_no_inf`: the all-missing numeric
column `[NaN]` cleans to `[0]`. -/
theorem clean_output_no_missing_no_inf_witness :
    Val.num 0 ≠ Val.na ∧ ∀ b : Bool, Val.num 0 ≠ Val.inf b :=
  clean_output_no_missing_no_inf [⟨"a", Dtype.numeric, [Val.na]⟩]
    ⟨"a", Dtype.numeric, [Val.num 0]⟩ (by with_unfolding_all decide)
    (Val.num 0) (by with_unfolding_all decide)

theorem mem_zipWith_rename {t : Table} {ns : List String} {c : Column}
    (hc : c ∈ List.zipWith (fun c n => { c with name := n }) t ns) :
    ∃ c' ∈ t, c.cells = c'.cells ∧ c.dtype = c'.dtype := by
  induction t generalizing ns with
  | nil => cases hc
  | cons a t ih =>
    cases ns with
    | nil => cases hc
    | cons n ns =>
      rcases List.mem_cons.mp hc with h | h
      · exact ⟨a, List.mem_cons_self a t, by rw [h], by rw [h]⟩
      · rcases ih h with ⟨c', hc', hcells, hdt⟩
        exact ⟨c', List.mem_cons_of_mem a hc', hcells, hdt⟩

/-- C3 (amended): an input table all of whose columns are empty flows
through the cleaning core without raising and comes out with all columns
still empty — an ordinary empty table, not a distinguished no-data signal. -/
theorem clean_empty_input_returns_empty (t : Table) (h : ∀ c ∈ t, c.cells = []) :
    cleanDataCoreOpt (some t) = Except.ok (cleanDataCore t) ∧
    ∀ c ∈ cleanDataCore t, c.cells = [] := by
  refine ⟨rfl, ?_⟩
  have h1 : ∀ c ∈ normalizeColumns t, c.cells = [] := by
    intro c hc
    rcases mem_zipWith_rename hc with ⟨c', hc', hcells, _⟩
    rw [hcells]; exact h c' hc'
  have h2 : ∀ c ∈ detectDatetime (normalizeColumns t), c.cells = [] := by
    intro c hc
    rcases List.mem_map.mp hc with ⟨c', hc', rfl⟩
    have he := h1 c' hc'
    simp [detectDTCol, he, List.mapM, List.mapM.loop]
  have h3 : ∀ c ∈ fillMissing (detectDatetime (normalizeColumns t)), c.cells = [] := by
    intro c hc
    rcases List.mem_map.mp hc with ⟨c', hc', rfl⟩
    have he := h2 c' hc'
    simp [fillCol, he]
  have h4 : ∀ c ∈ capOutliers (fillMissing (detectDatetime (normalizeColumns t))),
      c.cells = [] := by
    intro c hc
    rcases List.mem_map.mp hc with ⟨c', hc', rfl⟩
    have he := h3 c' hc'
    by_cases hd : c'.dtype = Dtype.numeric <;> simp [capCol, hd, he]
  have h5 : ∀ c ∈ replaceInf (capOutliers (fillMissing (detectDatetime (normalizeColumns t)))),
      c.cells = [] := by
    intro c hc
    rcases List.mem_map.mp hc with ⟨c', hc', rfl⟩
    have he := h4 c' hc'
    simp [he]
  have h6 : ∀ c ∈ fillZero (replaceInf (capOutliers (fillMissing
      (detectDatetime (normalizeColumns t))))), c.cells = [] := by
    intro c hc
    rcases List.mem_map.mp hc with ⟨c', hc', rfl⟩
    have he := h5 c' hc'
    simp [he]
  intro c hc
  unfold cleanDataCore at hc
  rcases List.mem_map.mp hc with ⟨e, he, rfl⟩
  have hee := h6 e he
  simp [hee]

/-- Witness for `clean_empty_input_returns_empty` at a one-column,
zero-row table. -/
theorem clean_empty_input_returns_empty_witness :
    cleanDataCoreOpt (some [⟨"A", Dtype.object, []⟩]) =
      Except.ok (cleanDataCore [⟨"A", Dtype.object, []⟩]) ∧
    ∀ c ∈ cleanDataCore [⟨"A", Dtype.object, []⟩], c.cells = [] :=
  clean_empty_input_returns_empty [⟨"A", Dtype.object, []⟩]
    (by with_unfolding_all decide)

/-- C7: the Category Mapping of an encoded column is a bijection between the
0-based codes and the observed labels — numeric labels just as much as
string labels: the category list is duplicate-free, decoding a code and
re-encoding the label returns that code — and every non-negative code the
encoder emits decodes through the mapping and re-encodes to itself
(missing cells get the out-of-mapping code `-1`). -/
theorem encoder_mapping_roundtrip (cells : List Val) :
    (categoriesOf cells).Nodup ∧
    (∀ i : ℕ, ∀ v : Val, categoryMapping cells i = some v →
      encodeCell (categoriesOf cells) v = (i : ℤ)) ∧
    (∀ z ∈ encodeColumn cells, 0 ≤ z →
      ∃ v : Val, categoryMapping cells z.toNat = some v ∧
        encodeCell (categoriesOf cells) v = z) := by
  have hperm := List.perm_insertionSort (fun a b => valLeB a b = true)
    ((cells.filter (· ≠ Val.na)).dedup)
  have hnd : (categoriesOf cells).Nodup :=
    (List.Perm.nodup_iff hperm).mpr (List.nodup_dedup _)
  have hnotna : ∀ v ∈ categoriesOf cells, v ≠ Val.na := by
    intro v hv
    have hvd : v ∈ (cells.filter (· ≠ Val.na)).dedup := hperm.mem_iff.mp hv
    have hvf : v ∈ cells.filter (· ≠ Val.na) := List.mem_dedup.mp hvd
    simpa using (List.mem_filter.mp hvf).2
  refine ⟨hnd, ?_, ?_⟩
  · intro i v hmap
    unfold categoryMapping at hmap
    rcases List.get?_eq_some.mp hmap with ⟨hi, hget⟩
    have hvmem : v ∈ categoriesOf cells := by
      rw [← hget]; exact List.get_mem _ _ _
    have hvna : v ≠ Val.na := hnotna v hvmem
    have hidx : (categoriesOf cells).indexOf v = i := by
      have hh := List.indexOf_getElem hnd i hi
      rw [List.get_eq_getElem] at hget
      rw [hget] at hh
      exact hh
    simp [encodeCell, hvna, hvmem, hidx]
  · intro z hz hz0
    rcases List.mem_map.mp hz with ⟨v, hv, rfl⟩
    by_cases hvna : v = Val.na
    · simp [encodeCell, hvna] at hz0
    · by_cases hvm : v ∈ categoriesOf cells
      · refine ⟨v, ?_, ?_⟩
        · unfold categoryMapping
          simp [encodeCell, hvna, hvm]
        · simp [encodeCell, hvna, hvm]
      · simp [encodeCell, hvna, hvm] at hz0

/-- Witness for `encoder_mapping_roundtrip` at the numeric column
`[2, NaN, 1, 2]` and the emitted code `1`. -/
theorem encoder_mapping_roundtrip_witness :
    ∃ v : Val,
      categoryMapping [Val.num 2, Val.na, Val.num 1, Val.num 2] ((1 : ℤ)).toNat = some v ∧
      encodeCell (categoriesOf [Val.num 2, Val.na, Val.num 1, Val.num 2]) v = 1 :=
  (encoder_mapping_roundtrip [Val.num 2, Val.na, Val.num 1, Val.num 2]).2.2 1
    (by with_unfolding_all decide) (by norm_num)

/-- C5 (amended): for a table with duplicate-free column names, a column of
numeric dtype whose lower-cased name is not in the skip list lands in the
categorical class exactly when its distinct-value count is below 20, in the
numerical class exactly when it is at least 20, and never in the datetime
class — so on such columns the classifier does partition; the general
three-way partition fails (see the counterexample). -/
theorem classifier_numeric_exactly_one (t : Table) (hnd : (t.map Column.name).Nodup)
    (c : Column) (hc : c ∈ t) (hdt : c.dtype = Dtype.numeric)
    (hskip : c.name.toLower ∉ skipCols) :
    (c.name ∈ catColsOf t ↔ nuniqueCol c < 20) ∧
    (c.name ∈ numColsOf t ↔ 20 ≤ nuniqueCol c) ∧
    c.name ∉ datetimeColsOf t := by
  have hinj := List.inj_on_of_nodup_map hnd
  have hcat : c.name ∈ catColsOf t ↔ nuniqueCol c < 20 := by
    constructor
    · intro hmem
      rcases List.mem_map.mp hmem with ⟨c', hc', hname⟩
      have hcf := List.mem_filter.mp hc'
      have hcc : c' = c := hinj hcf.1 hc hname
      rw [hcc] at hcf
      have hcond := hcf.2
      simp [hdt, hskip] at hcond
      exact hcond
    · intro hlt
      refine List.mem_map.mpr ⟨c, List.mem_filter.mpr ⟨hc, ?_⟩, rfl⟩
      simp [hdt, hlt, hskip]
  have hnum : c.name ∈ numColsOf t ↔ 20 ≤ nuniqueCol c := by
    constructor
    · intro hmem
      rcases List.mem_map.mp hmem with ⟨c', hc', hname⟩
      have hcf := List.mem_filter.mp hc'
      have hcc : c' = c := hinj hcf.1 hc hname
      rw [hcc] at hcf
      have hcond := hcf.2
      simp [hdt, hskip] at hcond
      by_contra hge
      push_neg at hge
      exact hcond (hcat.mpr hge)
    · intro hge
      refine List.mem_map.mpr ⟨c, List.mem_filter.mpr ⟨hc, ?_⟩, rfl⟩
      have hnotcat : c.name ∉ catColsOf t := fun hmem => by
        have := hcat.mp hmem
        omega
      simp [hdt, hskip, hnotcat]
  refine ⟨hcat, hnum, ?_⟩
  intro hmem
  rcases List.mem_map.mp hmem with ⟨c', hc', hname⟩
  have hcf := List.mem_filter.mp hc'
  have hcc : c' = c := hinj hcf.1 hc hname
  rw [hcc] at hcf
  have := hcf.2
  simp [hdt] at this

/-- Witness for `classifier_numeric_exactly_one` at a one-column table with
a low-cardinality numeric column. -/
theorem classifier_numeric_exactly_one_witness :
    ("score" ∈ catColsOf [⟨"score", Dtype.numeric, [Val.num 1, Val.num 2, Val.num 3]⟩] ↔
      nuniqueCol ⟨"score", Dtype.numeric, [Val.num 1, Val.num 2, Val.num 3]⟩ < 20) ∧
    ("score" ∈ numColsOf [⟨"score", Dtype.numeric, [Val.num 1, Val.num 2, Val.num 3]⟩] ↔
      20 ≤ nuniqueCol ⟨"score", Dtype.numeric, [Val.num 1, Val.num 2, Val.num 3]⟩) ∧
    "score" ∉ datetimeColsOf [⟨"score", Dtype.numeric, [Val.num 1, Val.num 2, Val.num 3]⟩] :=
  classifier_numeric_exactly_one
    [⟨"score", Dtype.numeric, [Val.num 1, Val.num 2, Val.num 3]⟩]
    (by with_unfolding_all decide)
    ⟨"score", Dtype.numeric, [Val.num 1, Val.num 2, Val.num 3]⟩
    (by with_unfolding_all decide) rfl (by with_unfolding_all decide)

/-- C1 (amended): the cleaning core caps before it deduplicates: the i-th
column of the final output only contains values clipped into the 1st/99th
percentile range of the i-th *pre-deduplication* (imputed) column — the
percentiles are computed on the table before duplicate rows are removed.
Stated for a fully-observed numeric column at the capping stage. -/
theorem clean_cap_uses_pre_dedupe_percentiles (t : Table) (i : ℕ) (c d : Column)
    (hc : (fillMissing (detectDatetime (normalizeColumns t))).get? i = some c)
    (hnum : c.dtype = Dtype.numeric)
    (hall : ∀ v ∈ c.cells, ∃ q : ℚ, v = Val.num q)
    (hd : (cleanDataCore t).get? i = some d) :
    ∀ v ∈ d.cells, ∃ q : ℚ, v = Val.num q ∧
      quantileQ (obsQ c.cells) (1 / 100) ≤ q ∧ q ≤ quantileQ (obsQ c.cells) (99 / 100) := by
  intro v hv
  have h1 : (capOutliers (fillMissing (detectDatetime (normalizeColumns t)))).get? i
      = some (capCol c) := by
    unfold capOutliers
    rw [List.get?_map, hc]
    rfl
  have h2 : (replaceInf (capOutliers (fillMissing (detectDatetime (normalizeColumns t))))).get? i
      = some { capCol c with cells := (capCol c).cells.map replaceInfCell } := by
    unfold replaceInf
    rw [List.get?_map, h1]
    rfl
  have h3 : (fillZero (replaceInf (capOutliers (fillMissing
      (detectDatetime (normalizeColumns t)))))).get? i
      = some { capCol c with
          cells := ((capCol c).cells.map replaceInfCell).map fillZeroCell } := by
    unfold fillZero
    rw [List.get?_map, h2]
    rfl
  unfold cleanDataCore dropDuplicates at hd
  rw [List.get?_map, h3] at hd
  have hd' : d.cells = (keptIdx (fillZero (replaceInf (capOutliers (fillMissing
      (detectDatetime (normalizeColumns t))))))).filterMap
      (fun j => (((capCol c).cells.map replaceInfCell).map fillZeroCell).get? j) := by
    cases hd
    rfl
  rw [hd'] at hv
  rcases List.mem_filterMap.mp hv with ⟨j, _, hget⟩
  have hv1 : v ∈ ((capCol c).cells.map replaceInfCell).map fillZeroCell :=
    List.get?_mem hget
  rcases List.mem_map.mp hv1 with ⟨v1, hv2, rfl⟩
  rcases List.mem_map.mp hv2 with ⟨v2, hv3, rfl⟩
  have hfin : ∀ b : Bool, Val.inf b ∉ c.cells := by
    intro b hb
    rcases hall _ hb with ⟨q0, hq0⟩
    cases hq0
  have hcc : (capCol c).cells = c.cells.map (fun v => xqToCell (clipX (cellToXQ v)
      (quantileX (xobs c.cells) (1 / 100)) (quantileX (xobs c.cells) (99 / 100)))) := by
    simp [capCol, hnum]
  by_cases ho : obsQ c.cells = []
  · have hcells : c.cells = [] := by
      cases hcl : c.cells with
      | nil => rfl
      | cons v0 rest =>
        rcases hall v0 (by rw [hcl]; exact List.mem_cons_self _ _) with ⟨q0, hq0⟩
        have hmem : q0 ∈ obsQ c.cells :=
          List.mem_filterMap.mpr ⟨v0, by rw [hcl]; exact List.mem_cons_self _ _, by rw [hq0]⟩
        rw [ho] at hmem
        cases hmem
    rw [hcc, hcells] at hv3
    cases hv3
  · have hx : xobs c.cells = (obsQ c.cells).map XQ.fin := xobs_eq_map_fin _ hfin
    have hlo : quantileX (xobs c.cells) (1 / 100)
        = XQ.fin (quantileQ (obsQ c.cells) (1 / 100)) := by
      rw [hx]; exact quantileX_map_fin _ ho (by norm_num) (by norm_num)
    have hup : quantileX (xobs c.cells) (99 / 100)
        = XQ.fin (quantileQ (obsQ c.cells) (99 / 100)) := by
      rw [hx]; exact quantileX_map_fin _ ho (by norm_num) (by norm_num)
    rw [hcc, hlo, hup] at hv3
    rcases List.mem_map.mp hv3 with ⟨v0, hv0, rfl⟩
    rcases hall v0 hv0 with ⟨q0, rfl⟩
    rw [show cellToXQ (Val.num q0) = XQ.fin q0 from rfl, clipX_fin]
    have hb := clipQ_bounds q0 (quantileQ_p1_le_p99 (obsQ c.cells))
    exact ⟨clipQ q0 (quantileQ (obsQ c.cells) (1 / 100)) (quantileQ (obsQ c.cells) (99 / 100)),
      rfl, hb.1, hb.2⟩

/-- Witness for `clean_cap_uses_pre_dedupe_percentiles` at the duplicated
column `[1,2,3,4,100,100]` and the output cell `2`. -/
theorem clean_cap_uses_pre_dedupe_percentiles_witness :
    ∃ q : ℚ, Val.num 2 = Val.num q ∧
      quantileQ (obsQ [Val.num 1, Val.num 2, Val.num 3, Val.num 4, Val.num 100, Val.num 100])
        (1 / 100) ≤ q ∧
      q ≤ quantileQ (obsQ [Val.num 1, Val.num 2, Val.num 3, Val.num 4, Val.num 100, Val.num 100])
        (99 / 100) :=
  clean_cap_uses_pre_dedupe_percentiles
    [⟨"a", Dtype.numeric,
      [Val.num 1, Val.num 2, Val.num 3, Val.num 4, Val.num 100, Val.num 100]⟩] 0
    ⟨"a", Dtype.numeric, [Val.num 1, Val.num 2, Val.num 3, Val.num 4, Val.num 100, Val.num 100]⟩
    ⟨"a", Dtype.numeric, [Val.num (21 / 20), Val.num 2, Val.num 3, Val.num 4, Val.num 100]⟩
    (by with_unfolding_all decide) rfl
    (by intro v hv; fin_cases hv <;> exact ⟨_, rfl⟩)
    (by with_unfolding_all decide)
    (Val.num 2) (by with_unfolding_all decide)
